import Mathlib

/-!
# Verification of the phase-timeline layout engine

Shallow embedding of `src/frontend/src/utils/timelineCalculations.ts` (bundled
in `dateFormat.ts`): timeline metrics, phase positioning, greedy lane
assignment and month-marker generation for the Gantt-style phase timeline.

JavaScript `Date` values in this module are always midnight-aligned calendar
dates (ISO `YYYY-MM-DD` inputs), so a date is modelled as a civil triple
(year, month 0-11 as in JS `getMonth`, day-of-month) and its JS time value by
the day-number function `tv` (scaled by `msPerDay` when milliseconds matter).
JS floating-point numbers produced by the percentage formulas are modelled as
exact rationals; on the integer/day-aligned data handled here the JS float
operations are exact, so the rational model is faithful.
-/

namespace Timeline

/-- Gregorian leap-year predicate (as implemented by the platform calendar
that backs the JS `Date` object). -/
def isLeap (y : Int) : Bool :=
  (y % 4 == 0 && y % 100 != 0) || (y % 400 == 0)

/-- Lengths of the twelve months, index 0 = January (JS month numbering). -/
def monthLengths (leap : Bool) : List Int :=
  [31, if leap then 29 else 28, 31, 30, 31, 30, 31, 31, 30, 31, 30, 31]

theorem monthLengths_length (leap : Bool) : (monthLengths leap).length = 12 := by
  cases leap <;> rfl

/-- Number of days in month `m` (0-based) of a year with leap flag `leap`. -/
def daysInMonth (leap : Bool) (m : Fin 12) : Int :=
  (monthLengths leap).get (Fin.cast (monthLengths_length leap).symm m)

/-- Number of days in the months strictly before month `m` of the same year. -/
def daysBeforeMonth (leap : Bool) (m : Fin 12) : Int :=
  ((monthLengths leap).take m.val).sum

/-- Day count from the calendar epoch (year 0, Jan 1) to Jan 1 of year `y`;
`(y+3)/4 - (y+99)/100 + (y+399)/400` counts the leap years before `y`.
Only differences of day numbers are ever used, so the choice of epoch is
irrelevant. -/
def daysBeforeYear (y : Int) : Int :=
  365 * y + (y + 3) / 4 - (y + 99) / 100 + (y + 399) / 400

/-- A calendar date as held by a (midnight-aligned) JS `Date`: year, month
(0-based, as returned by `getMonth`), and day of month (1-based). -/
structure CivilDate where
  year : Int
  month : Fin 12
  day : Int
deriving DecidableEq, Repr

/-- A civil date actually denotes a calendar day (day-of-month in range).
Dates parsed from valid ISO strings always satisfy this. -/
def ValidDate (d : CivilDate) : Prop :=
  1 ≤ d.day ∧ d.day ≤ daysInMonth (isLeap d.year) d.month

instance : DecidablePred ValidDate := fun d => by
  unfold ValidDate; infer_instance

/-- The day number of a civil date: the JS time value divided by `msPerDay`. -/
def tv (d : CivilDate) : Int :=
  daysBeforeYear d.year + daysBeforeMonth (isLeap d.year) d.month + d.day - 1

/-- `1000 * 60 * 60 * 24`, as in the source. -/
def msPerDay : Int := 1000 * 60 * 60 * 24

/-- JS `getTime()` for a midnight-aligned date. -/
def getTime (d : CivilDate) : Int := tv d * msPerDay

/-- `daysBetween`: `Math.ceil((endMs - startMs) / msPerDay)`.  The float
division is exact here because both time values are multiples of `msPerDay`,
so the ceiling is the integer ceiling division modelled below. -/
def daysBetween (start stop : CivilDate) : Int :=
  (getTime stop - getTime start + (msPerDay - 1)) / msPerDay

theorem daysBetween_eq (a b : CivilDate) : daysBetween a b = tv b - tv a := by
  unfold daysBetween getTime msPerDay
  omega

/-- The raw `startDate` / `endDate` field of a phase: `null`, a string that
does not parse to a valid date, or a string parsing to a calendar date. -/
inductive DateInput where
  | nullInput : DateInput
  | unparsable : DateInput
  | parsed : CivilDate → DateInput
deriving DecidableEq, Repr

/-- `parseDate`: `null`/unparsable inputs give `null`, otherwise the date. -/
def parseDate : DateInput → Option CivilDate
  | .nullInput => none
  | .unparsable => none
  | .parsed d => some d

/-- A phase record, restricted to the fields this module reads (`id`,
`startDate`, `endDate`; `name`, `status`, `order`, ... are never consulted by
the layout engine). -/
structure Phase where
  id : String
  startDate : DateInput
  endDate : DateInput
deriving DecidableEq, Repr

/-- Day number of a phase's parsed start date (0 when it does not parse; the
default is only ever reached on unfiltered input, mirroring the non-null
assertion `parseDate(...)!` in the source). -/
def startT (p : Phase) : Int :=
  match parseDate p.startDate with
  | some d => tv d
  | none => 0

/-- Day number of a phase's parsed end date (0 when it does not parse). -/
def endT (p : Phase) : Int :=
  match parseDate p.endDate with
  | some d => tv d
  | none => 0

/-- Phase `p`'s date range contains day `x` (closed interval, used to count
how many phases overlap simultaneously at a point in time). -/
def coversB (x : Int) (p : Phase) : Bool :=
  decide (startT p ≤ x) && decide (x ≤ endT p)

/-- `datesOverlap`: `start1 <= end2 && start2 <= end1` (JS `Date` comparison
is comparison of time values). -/
def datesOverlap (s1 e1 s2 e2 : CivilDate) : Bool :=
  decide (tv s1 ≤ tv e2) && decide (tv s2 ≤ tv e1)

/-- The filter predicate of `filterPhasesWithDates`:
`start !== null && end !== null && start <= end`. -/
def schedulableB (p : Phase) : Bool :=
  match parseDate p.startDate, parseDate p.endDate with
  | some s, some e => decide (tv s ≤ tv e)
  | _, _ => false

/-- `filterPhasesWithDates`. -/
def filterPhasesWithDates (phases : List Phase) : List Phase :=
  phases.filter schedulableB

/-- A phase is schedulable: both dates parse and start ≤ end. -/
def Schedulable (p : Phase) : Prop := schedulableB p = true

instance (p : Phase) : Decidable (Schedulable p) := by
  unfold Schedulable; infer_instance

/-- A raw date field is well-formed when, if it parses, the parsed civil
triple denotes a real calendar day.  JS `Date` values obtained from parsing
always satisfy this. -/
def validInputB : DateInput → Bool
  | .parsed d => decide (ValidDate d)
  | _ => true

/-- All date fields of all phases in the list are well-formed. -/
def ValidPhases (l : List Phase) : Prop :=
  ∀ p ∈ l, validInputB p.startDate = true ∧ validInputB p.endDate = true

instance (l : List Phase) : Decidable (ValidPhases l) := by
  unfold ValidPhases; infer_instance

/-- The `minDate` part of one `forEach` step of `calculateTimelineMetrics`. -/
def minStep (acc : Option CivilDate) (p : Phase) : Option CivilDate :=
  match parseDate p.startDate, acc with
  | some sd, none => some sd
  | some sd, some m => if tv sd < tv m then some sd else some m
  | none, m => m

/-- The `maxDate` part of one `forEach` step of `calculateTimelineMetrics`. -/
def maxStep (acc : Option CivilDate) (p : Phase) : Option CivilDate :=
  match parseDate p.endDate, acc with
  | some ed, none => some ed
  | some ed, some m => if tv m < tv ed then some ed else some m
  | none, m => m

/-- `TimelineMetrics` (the `left`-hand string renderings are omitted; they are
locale formattings of the same numbers). -/
structure TimelineMetrics where
  startDate : CivilDate
  endDate : CivilDate
  totalDays : Int
  pixelsPerDay : Rat
  containerWidth : Rat
deriving DecidableEq, Repr

/-- One step of the `forEach` loop computing `minDate` / `maxDate`. -/
def scanStep (acc : Option CivilDate × Option CivilDate) (p : Phase) :
    Option CivilDate × Option CivilDate :=
  let s := parseDate p.startDate
  let e := parseDate p.endDate
  let mn := match s, acc.1 with
    | some sd, none => some sd
    | some sd, some m => if tv sd < tv m then some sd else some m
    | none, m => m
  let mx := match e, acc.2 with
    | some ed, none => some ed
    | some ed, some m => if tv m < tv ed then some ed else some m
    | none, m => m
  (mn, mx)

/-- The `forEach` loop over the filtered phases. -/
def scanMinMax (l : List Phase) : Option CivilDate × Option CivilDate :=
  l.foldl scanStep (none, none)

/-- The month preceding `m` (wrapping to December). -/
def prevMonth (m : Fin 12) : Fin 12 := ⟨(m.val + 11) % 12, by omega⟩

/-- The month following `m` (wrapping to January). -/
def nextMonthFin (m : Fin 12) : Fin 12 := ⟨(m.val + 1) % 12, by omega⟩

/-- `d.setDate(d.getDate() - 7)`: JS normalizes an out-of-range day-of-month
by borrowing from the previous month (December of the previous year when in
January; December always has 31 days). -/
def subDays7 (x : CivilDate) : CivilDate :=
  if 7 < x.day then { x with day := x.day - 7 }
  else if x.month.val = 0 then ⟨x.year - 1, ⟨11, by omega⟩, x.day + 24⟩
  else ⟨x.year, prevMonth x.month,
    daysInMonth (isLeap x.year) (prevMonth x.month) + x.day - 7⟩

/-- `d.setDate(d.getDate() + 7)`: carries into the next month (January of the
next year when in December) on day-of-month overflow. -/
def addDays7 (x : CivilDate) : CivilDate :=
  if x.day + 7 ≤ daysInMonth (isLeap x.year) x.month then { x with day := x.day + 7 }
  else if x.month.val = 11 then ⟨x.year + 1, ⟨0, by omega⟩, x.day + 7 - 31⟩
  else ⟨x.year, nextMonthFin x.month, x.day + 7 - daysInMonth (isLeap x.year) x.month⟩

/-- `calculateTimelineMetrics`. -/
def calculateTimelineMetrics (phases : List Phase) (containerWidth : Rat := 1000) :
    Option TimelineMetrics :=
  let phasesWithDates := filterPhasesWithDates phases
  if phasesWithDates.isEmpty then none
  else
    match scanMinMax phasesWithDates with
    | (some minDate, some maxDate) =>
      let paddedStart := subDays7 minDate
      let paddedEnd := addDays7 maxDate
      let totalDays := daysBetween paddedStart paddedEnd
      some ⟨paddedStart, paddedEnd, totalDays, containerWidth / (totalDays : Rat),
        containerWidth⟩
    | _ => none

/-- `PhasePosition` (the `left`/`width` CSS strings are string renderings of
`leftPercent` and the clamped width and are omitted). -/
structure PhasePosition where
  leftPercent : Rat
  widthPercent : Rat
  lane : Nat
deriving DecidableEq, Repr

/-- `calculatePhasePosition`.  Note the source only re-checks that both dates
parse (`!start || !end`); it does not re-check `start <= end`. -/
def calculatePhasePosition (phase : Phase) (metrics : TimelineMetrics) :
    Option PhasePosition :=
  match parseDate phase.startDate, parseDate phase.endDate with
  | some s, some e =>
    let startOffset := daysBetween metrics.startDate s
    let duration := max (daysBetween s e) 1
    let leftPercent : Rat := ((startOffset : Rat) / (metrics.totalDays : Rat)) * 100
    let widthPercent : Rat := ((duration : Rat) / (metrics.totalDays : Rat)) * 100
    some ⟨leftPercent, max widthPercent 2, 0⟩
  | _, _ => none

/-- The `for` loop scanning `laneOccupancy` for the first lane whose tracked
end date is strictly before `s` (`start > laneOccupancy[i]`), updating that
entry to `e`; a new lane is appended when none qualifies.  Returns the
assigned index and the updated occupancy list. -/
def placeInLanes (s e : CivilDate) : List CivilDate → Nat × List CivilDate
  | [] => (0, [e])
  | o :: rest =>
    if tv o < tv s then (0, e :: rest)
    else
      let r := placeInLanes s e rest
      (r.1 + 1, o :: r.2)

/-- The sort comparator `parseDate(a.startDate)! - parseDate(b.startDate)!`
as a boolean "less or equal" (JS `Array.prototype.sort` is stable, so the
result is the stable ascending order, i.e. `mergeSort`). -/
def sortLE (a b : Phase) : Bool := decide (startT a ≤ startT b)

/-- The sorted copy `[...phasesWithDates].sort(...)`. -/
def sortedSchedulable (phases : List Phase) : List Phase :=
  (filterPhasesWithDates phases).mergeSort sortLE

/-- The `forEach` of `assignPhasesToLanes`: threads the occupancy list and
records `(phase, lane)` in processing order (the source stores these pairs
into a `Map` keyed by `phase.id`).  The fallthrough for phases whose dates do
not parse is unreachable: the function is only applied to the filtered list
(the source uses the non-null assertion `!` there). -/
def assignLanesGo : List Phase → List CivilDate → List (Phase × Nat) × List CivilDate
  | [], occ => ([], occ)
  | p :: rest, occ =>
    match parseDate p.startDate, parseDate p.endDate with
    | some s, some e =>
      let pl := placeInLanes s e occ
      let r := assignLanesGo rest pl.2
      ((p, pl.1) :: r.1, r.2)
    | _, _ => assignLanesGo rest occ

/-- The sequence of `laneAssignments.set(phase.id, assignedLane)` calls, with
the phase itself kept alongside. -/
def lanePairs (phases : List Phase) : List (Phase × Nat) :=
  (assignLanesGo (sortedSchedulable phases) []).1

/-- `assignPhasesToLanes`: the contents of the returned `Map` in insertion
order. -/
def assignPhasesToLanes (phases : List Phase) : List (String × Nat) :=
  (lanePairs phases).map fun pr => (pr.1.id, pr.2)

/-- The number of lanes in use at the end (`laneOccupancy.length`). -/
def numLanes (phases : List Phase) : Nat :=
  (assignLanesGo (sortedSchedulable phases) []).2.length

/-- A month marker (the locale `label` string is omitted). -/
structure MonthMarker where
  date : CivilDate
  position : Rat
deriving DecidableEq, Repr

/-- `current.setMonth(current.getMonth() + 1)` (day-of-month is always 1 when
the loop calls this, so no day normalization occurs). -/
def nextMonthDate (c : CivilDate) : CivilDate :=
  if c.month.val = 11 then ⟨c.year + 1, ⟨0, by omega⟩, c.day⟩
  else ⟨c.year, nextMonthFin c.month, c.day⟩

theorem isLeap_iff (y : Int) :
    isLeap y = true ↔ (y % 4 = 0 ∧ ¬ y % 100 = 0) ∨ y % 400 = 0 := by
  unfold isLeap
  simp

theorem daysBeforeYear_succ (y : Int) :
    daysBeforeYear (y + 1) = daysBeforeYear y + (if isLeap y then 366 else 365) := by
  have h := isLeap_iff y
  unfold daysBeforeYear
  cases hl : isLeap y <;> simp [hl] at h ⊢ <;> omega

theorem daysInMonth_ge_28 : ∀ (l : Bool) (m : Fin 12), 28 ≤ daysInMonth l m := by
  decide

theorem daysInMonth_le_31 : ∀ (l : Bool) (m : Fin 12), daysInMonth l m ≤ 31 := by
  decide

theorem daysBeforeMonth_next : ∀ (l : Bool) (m : Fin 12), m.val ≠ 11 →
    daysBeforeMonth l (nextMonthFin m) = daysBeforeMonth l m + daysInMonth l m := by
  decide

theorem daysBeforeMonth_prev : ∀ (l : Bool) (m : Fin 12), m.val ≠ 0 →
    daysBeforeMonth l m = daysBeforeMonth l (prevMonth m) + daysInMonth l (prevMonth m) := by
  decide

theorem daysBeforeMonth_11 : ∀ (l : Bool) (m : Fin 12), m.val = 11 →
    daysBeforeMonth l m = 334 + (if l then 1 else 0) := by
  decide

theorem daysBeforeMonth_0 : ∀ (l : Bool) (m : Fin 12), m.val = 0 →
    daysBeforeMonth l m = 0 := by
  decide

theorem daysInMonth_11 : ∀ (l : Bool) (m : Fin 12), m.val = 11 →
    daysInMonth l m = 31 := by
  decide

theorem daysInMonth_0 : ∀ (l : Bool) (m : Fin 12), m.val = 0 →
    daysInMonth l m = 31 := by
  decide

theorem tv_lt_nextMonthDate (c : CivilDate) : tv c < tv (nextMonthDate c) := by
  obtain ⟨y, m, d⟩ := c
  unfold nextMonthDate
  split
  · next h =>
    have h1 := daysBeforeYear_succ y
    show daysBeforeYear y + daysBeforeMonth (isLeap y) m + d - 1 <
      daysBeforeYear (y + 1) + daysBeforeMonth (isLeap (y + 1)) _ + d - 1
    rw [daysBeforeMonth_0 (isLeap (y + 1)) _ rfl, daysBeforeMonth_11 (isLeap y) m h]
    cases hc : isLeap y <;> simp [hc] at h1 ⊢ <;> omega
  · next h =>
    have h1 := daysBeforeMonth_next (isLeap y) m h
    have h2 := daysInMonth_ge_28 (isLeap y) m
    show daysBeforeYear y + daysBeforeMonth (isLeap y) m + d - 1 <
      daysBeforeYear y + daysBeforeMonth (isLeap y) (nextMonthFin m) + d - 1
    omega

/-- The `while (current <= endDate)` loop of `generateMonthMarkers`. -/
def genMarkersGo (endD : CivilDate) (metrics : TimelineMetrics) (current : CivilDate) :
    List MonthMarker :=
  if tv current ≤ tv endD then
    ⟨current, ((daysBetween metrics.startDate current : Int) : Rat) / (metrics.totalDays : Rat) * 100⟩
      :: genMarkersGo endD metrics (nextMonthDate current)
  else []
termination_by (tv endD + 1 - tv current).toNat
decreasing_by
  have h1 := tv_lt_nextMonthDate current
  simp_wf
  omega

/-- `generateMonthMarkers`: starts at the first day of the month containing
`startD` (`new Date(getFullYear(), getMonth(), 1)`). -/
def generateMonthMarkers (startD endD : CivilDate) (metrics : TimelineMetrics) :
    List MonthMarker :=
  genMarkersGo endD metrics ⟨startD.year, startD.month, 1⟩

/-- `getTodayPosition`, with the wall-clock date passed explicitly. -/
def getTodayPosition (today : CivilDate) (metrics : TimelineMetrics) : Option Rat :=
  if tv today < tv metrics.startDate || tv metrics.endDate < tv today then none
  else some (((daysBetween metrics.startDate today : Int) : Rat) / (metrics.totalDays : Rat) * 100)

/-! ## Concrete phases used as test inputs -/

/-- One-day phase on 2025-01-01. -/
def cxA : Phase := ⟨"A", .parsed ⟨2025, 0, 1⟩, .parsed ⟨2025, 0, 1⟩⟩

/-- One-day phase on 2027-01-01, far from `cxA`. -/
def cxB : Phase := ⟨"B", .parsed ⟨2027, 0, 1⟩, .parsed ⟨2027, 0, 1⟩⟩

/-- Phase with an inverted range: 2025-01-10 .. 2025-01-05. -/
def invPhase : Phase := ⟨"inv", .parsed ⟨2025, 0, 10⟩, .parsed ⟨2025, 0, 5⟩⟩

/-- Well-formed phase 2025-01-05 .. 2025-01-20. -/
def goodPhase : Phase := ⟨"good", .parsed ⟨2025, 0, 5⟩, .parsed ⟨2025, 0, 20⟩⟩

/-- Well-formed phase 2025-01-15 .. 2025-01-20. -/
def wPhase : Phase := ⟨"W1", .parsed ⟨2025, 0, 15⟩, .parsed ⟨2025, 0, 20⟩⟩

/-- Back-to-back pair: `bbP1` ends 2025-01-10, the exact day `bbP2` starts. -/
def bbP1 : Phase := ⟨"B1", .parsed ⟨2025, 0, 1⟩, .parsed ⟨2025, 0, 10⟩⟩

/-- Back-to-back pair: starts 2025-01-10, the exact day `bbP1` ends. -/
def bbP2 : Phase := ⟨"B2", .parsed ⟨2025, 0, 10⟩, .parsed ⟨2025, 0, 20⟩⟩

/-- Sequential pair with a gap: 2025-01-01 .. 2025-01-10. -/
def seqP1 : Phase := ⟨"S1", .parsed ⟨2025, 0, 1⟩, .parsed ⟨2025, 0, 10⟩⟩

/-- Sequential pair with a gap: 2025-01-12 .. 2025-01-20. -/
def seqP2 : Phase := ⟨"S2", .parsed ⟨2025, 0, 12⟩, .parsed ⟨2025, 0, 20⟩⟩

/-- The metrics computed for `[wPhase]` at container width 1000. -/
def wMetrics : TimelineMetrics :=
  ⟨⟨2025, 0, 8⟩, ⟨2025, 0, 27⟩, 19, 1000 / 19, 1000⟩

/-- The metrics computed for `[cxA, cxB]` at container width 1000:
window 2024-12-25 .. 2027-01-08, 744 days. -/
def mC1 : TimelineMetrics :=
  ⟨⟨2024, 11, 25⟩, ⟨2027, 0, 8⟩, 744, 1000 / 744, 1000⟩

/-- The metrics computed for `[goodPhase, invPhase]` at container width 1000:
window 2024-12-29 .. 2025-01-27, 29 days (the inverted phase is filtered
out). -/
def mC3 : TimelineMetrics :=
  ⟨⟨2024, 11, 29⟩, ⟨2025, 0, 27⟩, 29, 1000 / 29, 1000⟩

/-! ## Calendar arithmetic for the 7-day padding -/

theorem daysInMonth_zero (l : Bool) : daysInMonth l ⟨0, by decide⟩ = 31 := by
  cases l <;> rfl

theorem tv_subDays7 (x : CivilDate) (h : ValidDate x) : tv (subDays7 x) = tv x - 7 := by
  obtain ⟨y, m, d⟩ := x
  have h1 : 1 ≤ d := h.1
  unfold subDays7
  split
  · next hd =>
    show daysBeforeYear y + daysBeforeMonth (isLeap y) m + (d - 7) - 1 =
      daysBeforeYear y + daysBeforeMonth (isLeap y) m + d - 1 - 7
    omega
  · next hd =>
    split
    · next hm =>
      show daysBeforeYear (y - 1) + daysBeforeMonth (isLeap (y - 1)) _ + (d + 24) - 1 =
        daysBeforeYear y + daysBeforeMonth (isLeap y) m + d - 1 - 7
      rw [daysBeforeMonth_11 (isLeap (y - 1)) _ rfl, daysBeforeMonth_0 (isLeap y) m hm]
      have hy := daysBeforeYear_succ (y - 1)
      have hyy : y - 1 + 1 = y := by omega
      rw [hyy] at hy
      cases hc : isLeap (y - 1) <;> simp [hc] at hy ⊢ <;> omega
    · next hm =>
      have hp := daysBeforeMonth_prev (isLeap y) m hm
      show daysBeforeYear y + daysBeforeMonth (isLeap y) (prevMonth m) +
          (daysInMonth (isLeap y) (prevMonth m) + d - 7) - 1 =
        daysBeforeYear y + daysBeforeMonth (isLeap y) m + d - 1 - 7
      omega

theorem valid_subDays7 (x : CivilDate) (h : ValidDate x) : ValidDate (subDays7 x) := by
  obtain ⟨y, m, d⟩ := x
  have h1 : 1 ≤ d := h.1
  have h2 : d ≤ daysInMonth (isLeap y) m := h.2
  unfold subDays7
  split
  · next hd =>
    have hd' : 7 < d := hd
    exact ⟨show 1 ≤ d - 7 by omega, show d - 7 ≤ daysInMonth (isLeap y) m by omega⟩
  · next hd =>
    have hd' : ¬ 7 < d := hd
    split
    · next hm =>
      refine ⟨show 1 ≤ d + 24 by omega, ?_⟩
      show d + 24 ≤ daysInMonth (isLeap (y - 1)) _
      rw [daysInMonth_11 (isLeap (y - 1)) _ rfl]
      omega
    · next hm =>
      have hge := daysInMonth_ge_28 (isLeap y) (prevMonth m)
      exact ⟨show 1 ≤ daysInMonth (isLeap y) (prevMonth m) + d - 7 by omega,
        show daysInMonth (isLeap y) (prevMonth m) + d - 7 ≤
          daysInMonth (isLeap y) (prevMonth m) by omega⟩

theorem tv_addDays7 (x : CivilDate) (h : ValidDate x) : tv (addDays7 x) = tv x + 7 := by
  obtain ⟨y, m, d⟩ := x
  have h1 : 1 ≤ d := h.1
  unfold addDays7
  split
  · next hd =>
    show daysBeforeYear y + daysBeforeMonth (isLeap y) m + (d + 7) - 1 =
      daysBeforeYear y + daysBeforeMonth (isLeap y) m + d - 1 + 7
    omega
  · next hd =>
    split
    · next hm =>
      show daysBeforeYear (y + 1) + daysBeforeMonth (isLeap (y + 1)) _ + (d + 7 - 31) - 1 =
        daysBeforeYear y + daysBeforeMonth (isLeap y) m + d - 1 + 7
      rw [daysBeforeMonth_0 (isLeap (y + 1)) _ rfl, daysBeforeMonth_11 (isLeap y) m hm]
      have hy := daysBeforeYear_succ y
      cases hc : isLeap y <;> simp [hc] at hy ⊢ <;> omega
    · next hm =>
      have hp := daysBeforeMonth_next (isLeap y) m hm
      show daysBeforeYear y + daysBeforeMonth (isLeap y) (nextMonthFin m) +
          (d + 7 - daysInMonth (isLeap y) m) - 1 =
        daysBeforeYear y + daysBeforeMonth (isLeap y) m + d - 1 + 7
      omega

theorem valid_addDays7 (x : CivilDate) (h : ValidDate x) : ValidDate (addDays7 x) := by
  obtain ⟨y, m, d⟩ := x
  have h1 : 1 ≤ d := h.1
  have h2 : d ≤ daysInMonth (isLeap y) m := h.2
  unfold addDays7
  split
  · next hd =>
    have hd' : d + 7 ≤ daysInMonth (isLeap y) m := hd
    exact ⟨show 1 ≤ d + 7 by omega, show d + 7 ≤ daysInMonth (isLeap y) m from hd'⟩
  · next hd =>
    have hd' : ¬ d + 7 ≤ daysInMonth (isLeap y) m := hd
    split
    · next hm =>
      have hd31 : daysInMonth (isLeap y) m = 31 := daysInMonth_11 (isLeap y) m hm
      refine ⟨show 1 ≤ d + 7 - 31 by omega, ?_⟩
      show d + 7 - 31 ≤ daysInMonth (isLeap (y + 1)) _
      rw [daysInMonth_0 (isLeap (y + 1)) _ rfl]
      omega
    · next hm =>
      have hge := daysInMonth_ge_28 (isLeap y) (nextMonthFin m)
      exact ⟨show 1 ≤ d + 7 - daysInMonth (isLeap y) m by omega,
        show d + 7 - daysInMonth (isLeap y) m ≤ daysInMonth (isLeap y) (nextMonthFin m) by omega⟩

/-! ## Validity of parsed inputs -/

theorem validInputB_parse {di : DateInput} {d : CivilDate}
    (hv : validInputB di = true) (hp : parseDate di = some d) : ValidDate d := by
  cases di with
  | nullInput => simp [parseDate] at hp
  | unparsable => simp [parseDate] at hp
  | parsed x =>
    simp [parseDate] at hp
    subst hp
    simpa [validInputB] using hv

/-! ## The min/max scan of `calculateTimelineMetrics` -/

theorem foldl_scanStep_eq (l : List Phase) : ∀ (acc : Option CivilDate × Option CivilDate),
    l.foldl scanStep acc = (l.foldl minStep acc.1, l.foldl maxStep acc.2) := by
  induction l with
  | nil => intro acc; rfl
  | cons p rest ih =>
    intro acc
    show List.foldl scanStep (scanStep acc p) rest = _
    rw [ih]
    rfl

theorem min_go (l : List Phase) : ∀ (a : CivilDate),
    ∃ mn, l.foldl minStep (some a) = some mn ∧
      (mn = a ∨ ∃ p ∈ l, parseDate p.startDate = some mn) ∧
      tv mn ≤ tv a ∧
      ∀ p ∈ l, ∀ s, parseDate p.startDate = some s → tv mn ≤ tv s := by
  induction l with
  | nil =>
    intro a
    exact ⟨a, rfl, Or.inl rfl, le_refl _, by simp⟩
  | cons p rest ih =>
    intro a
    show ∃ mn, List.foldl minStep (minStep (some a) p) rest = some mn ∧ _
    cases hs : parseDate p.startDate with
    | none =>
      obtain ⟨mn, hfold, hat, hle, hbd⟩ := ih a
      refine ⟨mn, ?_, ?_, hle, ?_⟩
      · simpa [minStep, hs] using hfold
      · rcases hat with h | ⟨q, hq, hqs⟩
        · exact Or.inl h
        · exact Or.inr ⟨q, List.mem_cons_of_mem _ hq, hqs⟩
      · intro q hq s hqs
        rcases List.mem_cons.mp hq with rfl | hq'
        · rw [hs] at hqs; cases hqs
        · exact hbd q hq' s hqs
    | some sd =>
      by_cases hlt : tv sd < tv a
      · obtain ⟨mn, hfold, hat, hle, hbd⟩ := ih sd
        refine ⟨mn, ?_, ?_, by omega, ?_⟩
        · simpa [minStep, hs, hlt] using hfold
        · rcases hat with rfl | ⟨q, hq, hqs⟩
          · exact Or.inr ⟨p, List.mem_cons_self _ _, hs⟩
          · exact Or.inr ⟨q, List.mem_cons_of_mem _ hq, hqs⟩
        · intro q hq s hqs
          rcases List.mem_cons.mp hq with rfl | hq'
          · rw [hs] at hqs
            cases hqs
            exact hle
          · exact hbd q hq' s hqs
      · obtain ⟨mn, hfold, hat, hle, hbd⟩ := ih a
        refine ⟨mn, ?_, ?_, hle, ?_⟩
        · simpa [minStep, hs, hlt] using hfold
        · rcases hat with h | ⟨q, hq, hqs⟩
          · exact Or.inl h
          · exact Or.inr ⟨q, List.mem_cons_of_mem _ hq, hqs⟩
        · intro q hq s hqs
          rcases List.mem_cons.mp hq with rfl | hq'
          · rw [hs] at hqs
            cases hqs
            omega
          · exact hbd q hq' s hqs

theorem max_go (l : List Phase) : ∀ (b : CivilDate),
    ∃ mx, l.foldl maxStep (some b) = some mx ∧
      (mx = b ∨ ∃ p ∈ l, parseDate p.endDate = some mx) ∧
      tv b ≤ tv mx ∧
      ∀ p ∈ l, ∀ e, parseDate p.endDate = some e → tv e ≤ tv mx := by
  induction l with
  | nil =>
    intro b
    exact ⟨b, rfl, Or.inl rfl, le_refl _, by simp⟩
  | cons p rest ih =>
    intro b
    show ∃ mx, List.foldl maxStep (maxStep (some b) p) rest = some mx ∧ _
    cases he : parseDate p.endDate with
    | none =>
      obtain ⟨mx, hfold, hat, hle, hbd⟩ := ih b
      refine ⟨mx, ?_, ?_, hle, ?_⟩
      · simpa [maxStep, he] using hfold
      · rcases hat with h | ⟨q, hq, hqe⟩
        · exact Or.inl h
        · exact Or.inr ⟨q, List.mem_cons_of_mem _ hq, hqe⟩
      · intro q hq e hqe
        rcases List.mem_cons.mp hq with rfl | hq'
        · rw [he] at hqe; cases hqe
        · exact hbd q hq' e hqe
    | some ed =>
      by_cases hlt : tv b < tv ed
      · obtain ⟨mx, hfold, hat, hle, hbd⟩ := ih ed
        refine ⟨mx, ?_, ?_, by omega, ?_⟩
        · simpa [maxStep, he, hlt] using hfold
        · rcases hat with rfl | ⟨q, hq, hqe⟩
          · exact Or.inr ⟨p, List.mem_cons_self _ _, he⟩
          · exact Or.inr ⟨q, List.mem_cons_of_mem _ hq, hqe⟩
        · intro q hq e hqe
          rcases List.mem_cons.mp hq with rfl | hq'
          · rw [he] at hqe
            cases hqe
            exact hle
          · exact hbd q hq' e hqe
      · obtain ⟨mx, hfold, hat, hle, hbd⟩ := ih b
        refine ⟨mx, ?_, ?_, hle, ?_⟩
        · simpa [maxStep, he, hlt] using hfold
        · rcases hat with h | ⟨q, hq, hqe⟩
          · exact Or.inl h
          · exact Or.inr ⟨q, List.mem_cons_of_mem _ hq, hqe⟩
        · intro q hq e hqe
          rcases List.mem_cons.mp hq with rfl | hq'
          · rw [he] at hqe
            cases hqe
            omega
          · exact hbd q hq' e hqe

theorem schedulableB_spec {p : Phase} (h : schedulableB p = true) :
    ∃ s e, parseDate p.startDate = some s ∧ parseDate p.endDate = some e ∧ tv s ≤ tv e := by
  unfold schedulableB at h
  cases hs : parseDate p.startDate with
  | none => rw [hs] at h; cases h
  | some s =>
    cases he : parseDate p.endDate with
    | none => rw [hs, he] at h; cases h
    | some e =>
      rw [hs, he] at h
      exact ⟨s, e, rfl, rfl, by simpa using h⟩

theorem scanMinMax_spec (l : List Phase) (hne : l ≠ [])
    (hall : ∀ p ∈ l, schedulableB p = true) :
    ∃ mn mx, scanMinMax l = (some mn, some mx) ∧
      (∃ p ∈ l, parseDate p.startDate = some mn) ∧
      (∃ p ∈ l, parseDate p.endDate = some mx) ∧
      (∀ p ∈ l, ∀ s, parseDate p.startDate = some s → tv mn ≤ tv s) ∧
      (∀ p ∈ l, ∀ e, parseDate p.endDate = some e → tv e ≤ tv mx) := by
  cases l with
  | nil => exact absurd rfl hne
  | cons p rest =>
    obtain ⟨s0, e0, hs0, he0, _⟩ := schedulableB_spec (hall p (List.mem_cons_self _ _))
    have hstep : scanStep (none, none) p = (some s0, some e0) := by
      simp [scanStep, hs0, he0]
    show ∃ mn mx, List.foldl scanStep (scanStep (none, none) p) rest = (some mn, some mx) ∧ _
    rw [hstep, foldl_scanStep_eq]
    obtain ⟨mn, hmin, hminat, hmins0, hminbd⟩ := min_go rest s0
    obtain ⟨mx, hmax, hmaxat, hmaxe0, hmaxbd⟩ := max_go rest e0
    refine ⟨mn, mx, by rw [hmin, hmax], ?_, ?_, ?_, ?_⟩
    · rcases hminat with rfl | ⟨q, hq, hqs⟩
      · exact ⟨p, List.mem_cons_self _ _, hs0⟩
      · exact ⟨q, List.mem_cons_of_mem _ hq, hqs⟩
    · rcases hmaxat with rfl | ⟨q, hq, hqe⟩
      · exact ⟨p, List.mem_cons_self _ _, he0⟩
      · exact ⟨q, List.mem_cons_of_mem _ hq, hqe⟩
    · intro q hq s hqs
      rcases List.mem_cons.mp hq with rfl | hq'
      · rw [hs0] at hqs
        cases hqs
        exact hmins0
      · exact hminbd q hq' s hqs
    · intro q hq e hqe
      rcases List.mem_cons.mp hq with rfl | hq'
      · rw [he0] at hqe
        cases hqe
        exact hmaxe0
      · exact hmaxbd q hq' e hqe

theorem startT_eq {p : Phase} {s : CivilDate} (h : parseDate p.startDate = some s) :
    startT p = tv s := by
  unfold startT
  rw [h]

theorem endT_eq {p : Phase} {e : CivilDate} (h : parseDate p.endDate = some e) :
    endT p = tv e := by
  unfold endT
  rw [h]

theorem calculateTimelineMetrics_eq (ps : List Phase) (cw : Rat) (mn mx : CivilDate)
    (hne : filterPhasesWithDates ps ≠ [])
    (hscan : scanMinMax (filterPhasesWithDates ps) = (some mn, some mx)) :
    calculateTimelineMetrics ps cw = some ⟨subDays7 mn, addDays7 mx,
      daysBetween (subDays7 mn) (addDays7 mx),
      cw / ((daysBetween (subDays7 mn) (addDays7 mx) : Int) : Rat), cw⟩ := by
  unfold calculateTimelineMetrics
  simp [hscan, hne]

theorem calculateTimelineMetrics_none_iff (ps : List Phase) (cw : Rat) :
    calculateTimelineMetrics ps cw = none ↔ filterPhasesWithDates ps = [] := by
  constructor
  · intro h
    by_contra hne
    obtain ⟨mn, mx, hscan, -⟩ :=
      scanMinMax_spec _ hne (fun p hp => (List.mem_filter.mp hp).2)
    rw [calculateTimelineMetrics_eq ps cw mn mx hne hscan] at h
    cases h
  · intro h
    unfold calculateTimelineMetrics
    simp [h]

/-- Master description of a successful `calculateTimelineMetrics` run. -/
theorem metrics_spec {ps : List Phase} {cw : Rat} {m : TimelineMetrics}
    (hm : calculateTimelineMetrics ps cw = some m) :
    ∃ mn mx : CivilDate,
      (∃ p ∈ filterPhasesWithDates ps, parseDate p.startDate = some mn) ∧
      (∃ p ∈ filterPhasesWithDates ps, parseDate p.endDate = some mx) ∧
      (∀ p ∈ filterPhasesWithDates ps, ∀ s, parseDate p.startDate = some s → tv mn ≤ tv s) ∧
      (∀ p ∈ filterPhasesWithDates ps, ∀ e, parseDate p.endDate = some e → tv e ≤ tv mx) ∧
      m.startDate = subDays7 mn ∧ m.endDate = addDays7 mx ∧
      m.totalDays = daysBetween (subDays7 mn) (addDays7 mx) ∧
      m.pixelsPerDay = cw / ((m.totalDays : Int) : Rat) ∧
      m.containerWidth = cw := by
  have hne : filterPhasesWithDates ps ≠ [] := by
    intro h
    rw [(calculateTimelineMetrics_none_iff ps cw).mpr h] at hm
    cases hm
  obtain ⟨mn, mx, hscan, hat1, hat2, hbd1, hbd2⟩ :=
    scanMinMax_spec _ hne (fun p hp => (List.mem_filter.mp hp).2)
  have heq := calculateTimelineMetrics_eq ps cw mn mx hne hscan
  rw [hm] at heq
  obtain rfl := (Option.some_inj.mp heq).symm
  exact ⟨mn, mx, hat1, hat2, hbd1, hbd2, rfl, rfl, rfl, rfl, rfl⟩

/-- Validity of a date parsed from a phase of a `ValidPhases` list. -/
theorem valid_of_mem_start {ps : List Phase} {p : Phase} {s : CivilDate}
    (hv : ValidPhases ps) (hp : p ∈ filterPhasesWithDates ps)
    (hs : parseDate p.startDate = some s) : ValidDate s :=
  validInputB_parse (hv p (List.mem_filter.mp hp).1).1 hs

theorem valid_of_mem_end {ps : List Phase} {p : Phase} {e : CivilDate}
    (hv : ValidPhases ps) (hp : p ∈ filterPhasesWithDates ps)
    (hs : parseDate p.endDate = some e) : ValidDate e :=
  validInputB_parse (hv p (List.mem_filter.mp hp).1).2 hs

/-- **C9**: `calculateTimelineMetrics` returns `null` exactly when no input
phase is schedulable (empty list, or every phase has a null, unparsable or
inverted date range); with at least one schedulable phase it returns a
metrics value. -/
theorem claim_C9 (ps : List Phase) (cw : Rat) :
    calculateTimelineMetrics ps cw = none ↔ ∀ p ∈ ps, ¬ Schedulable p := by
  rw [calculateTimelineMetrics_none_iff]
  unfold filterPhasesWithDates Schedulable
  rw [List.filter_eq_nil_iff]

/-- **C6**: for a phase list with at least one schedulable phase, the window
start is exactly 7 calendar days before the earliest schedulable start date,
the window end exactly 7 calendar days after the latest schedulable end
date, and `totalDays = daysBetween(windowStart, windowEnd)`. -/
theorem claim_C6 (ps : List Phase) (cw : Rat) (m : TimelineMetrics)
    (hv : ValidPhases ps) (hm : calculateTimelineMetrics ps cw = some m) :
    ∃ mn mx : CivilDate,
      (∃ p ∈ filterPhasesWithDates ps, parseDate p.startDate = some mn) ∧
      (∀ p ∈ filterPhasesWithDates ps, tv mn ≤ startT p) ∧
      (∃ p ∈ filterPhasesWithDates ps, parseDate p.endDate = some mx) ∧
      (∀ p ∈ filterPhasesWithDates ps, endT p ≤ tv mx) ∧
      tv m.startDate = tv mn - 7 ∧
      tv m.endDate = tv mx + 7 ∧
      m.totalDays = daysBetween m.startDate m.endDate := by
  obtain ⟨mn, mx, hat1, hat2, hbd1, hbd2, hsd, hed, htd, -, -⟩ := metrics_spec hm
  obtain ⟨p1, hp1, hp1s⟩ := hat1
  obtain ⟨p2, hp2, hp2e⟩ := hat2
  have hvmn : ValidDate mn := valid_of_mem_start hv hp1 hp1s
  have hvmx : ValidDate mx := valid_of_mem_end hv hp2 hp2e
  refine ⟨mn, mx, ⟨p1, hp1, hp1s⟩, ?_, ⟨p2, hp2, hp2e⟩, ?_, ?_, ?_, ?_⟩
  · intro p hp
    obtain ⟨s, e, hs, he, -⟩ := schedulableB_spec (List.mem_filter.mp hp).2
    rw [startT_eq hs]
    exact hbd1 p hp s hs
  · intro p hp
    obtain ⟨s, e, hs, he, -⟩ := schedulableB_spec (List.mem_filter.mp hp).2
    rw [endT_eq he]
    exact hbd2 p hp e he
  · rw [hsd, tv_subDays7 mn hvmn]
  · rw [hed, tv_addDays7 mx hvmx]
  · rw [htd, hsd, hed]

/-- **C8**: with at least one schedulable phase, `totalDays` is at least 14
(hence nonzero, also as a rational), so no division by `totalDays` divides
by zero. -/
theorem claim_C8 (ps : List Phase) (cw : Rat) (m : TimelineMetrics)
    (hv : ValidPhases ps) (hm : calculateTimelineMetrics ps cw = some m) :
    14 ≤ m.totalDays ∧ m.totalDays ≠ 0 ∧ ((m.totalDays : Int) : Rat) ≠ 0 := by
  obtain ⟨mn, mx, hat1, hat2, hbd1, hbd2, hsd, hed, htd, -, -⟩ := metrics_spec hm
  obtain ⟨p1, hp1, hp1s⟩ := hat1
  have hvmn : ValidDate mn := valid_of_mem_start hv hp1 hp1s
  obtain ⟨p2, hp2, hp2e⟩ := hat2
  have hvmx : ValidDate mx := valid_of_mem_end hv hp2 hp2e
  obtain ⟨s1, e1, hs1, he1, hle1⟩ := schedulableB_spec (List.mem_filter.mp hp1).2
  rw [hp1s] at hs1
  cases hs1
  have hmnmx : tv mn ≤ tv mx := le_trans hle1 (hbd2 p1 hp1 e1 he1)
  have h14 : 14 ≤ m.totalDays := by
    rw [htd, daysBetween_eq, tv_subDays7 mn hvmn, tv_addDays7 mx hvmx]
    omega
  refine ⟨h14, by omega, ?_⟩
  have : m.totalDays ≠ 0 := by omega
  exact_mod_cast this

/-- **C3, counterexample**: an inverted phase (2025-01-10 .. 2025-01-05) is
not schedulable, yet `calculatePhasePosition` returns a position for it (the
source only re-checks that both dates parse, not their order), refuting the
claim that every non-schedulable phase gets `null`. -/
theorem claim_C3_counterexample :
    ¬ Schedulable invPhase ∧
    calculateTimelineMetrics [goodPhase, invPhase] 1000 = some mC3 ∧
    calculatePhasePosition invPhase mC3 = some ⟨1200 / 29, 100 / 29, 0⟩ := by
  refine ⟨by decide, by rfl, ?_⟩
  have h1 : daysBetween (⟨2024, 11, 29⟩ : CivilDate) ⟨2025, 0, 10⟩ = 12 := by decide
  have h2 : daysBetween (⟨2025, 0, 10⟩ : CivilDate) ⟨2025, 0, 5⟩ = -5 := by decide
  simp only [calculatePhasePosition, invPhase, parseDate, mC3, h1, h2]
  norm_num [max_def]

/-- **C1, counterexample**: with the one-day phases `cxA` (2025-01-01) and
`cxB` (2027-01-01), phase `cxB` is schedulable and included in the metrics,
yet its position has `leftPercent + widthPercent = 73700/744 + 2 ≈ 101.06 >
100`: the 2% minimum-width clamp pushes the bar past the right edge of the
window, refuting the containment claim. -/
theorem claim_C1_counterexample :
    Schedulable cxB ∧ cxB ∈ filterPhasesWithDates [cxA, cxB] ∧
    calculateTimelineMetrics [cxA, cxB] 1000 = some mC1 ∧
    calculatePhasePosition cxB mC1 = some ⟨73700 / 744, 2, 0⟩ ∧
    (100 < (73700 : Rat) / 744 + 2) := by
  refine ⟨by decide, by decide, by rfl, ?_, by norm_num⟩
  have h1 : daysBetween (⟨2024, 11, 25⟩ : CivilDate) ⟨2027, 0, 1⟩ = 737 := by decide
  have h2 : daysBetween (⟨2027, 0, 1⟩ : CivilDate) ⟨2027, 0, 1⟩ = 0 := by decide
  simp only [calculatePhasePosition, cxB, parseDate, mC1, h1, h2]
  norm_num [max_def]

/-- **C3, amended**: `calculatePhasePosition` returns `null` exactly when the
phase's start or end date is null or unparsable; a phase whose dates parse
but are inverted (end before start) still receives a position (its duration
clamped up to 1 day). -/
theorem claim_C3_amended (p : Phase) (m : TimelineMetrics) :
    calculatePhasePosition p m = none ↔
      parseDate p.startDate = none ∨ parseDate p.endDate = none := by
  unfold calculatePhasePosition
  cases hs : parseDate p.startDate <;> cases he : parseDate p.endDate <;> simp

/-- Witness instantiating `claim_C6` on the one-phase list `[wPhase]`. -/
theorem claim_C6_witness :
    ValidPhases [wPhase] ∧
    calculateTimelineMetrics [wPhase] 1000 = some wMetrics ∧
    (∃ mn mx : CivilDate,
      (∃ p ∈ filterPhasesWithDates [wPhase], parseDate p.startDate = some mn) ∧
      (∀ p ∈ filterPhasesWithDates [wPhase], tv mn ≤ startT p) ∧
      (∃ p ∈ filterPhasesWithDates [wPhase], parseDate p.endDate = some mx) ∧
      (∀ p ∈ filterPhasesWithDates [wPhase], endT p ≤ tv mx) ∧
      tv wMetrics.startDate = tv mn - 7 ∧
      tv wMetrics.endDate = tv mx + 7 ∧
      wMetrics.totalDays = daysBetween wMetrics.startDate wMetrics.endDate) :=
  ⟨by decide, by rfl, claim_C6 [wPhase] 1000 wMetrics (by decide) (by rfl)⟩

/-- Witness instantiating `claim_C8` on the one-phase list `[wPhase]`. -/
theorem claim_C8_witness :
    ValidPhases [wPhase] ∧
    calculateTimelineMetrics [wPhase] 1000 = some wMetrics ∧
    (14 ≤ wMetrics.totalDays ∧ wMetrics.totalDays ≠ 0 ∧
      ((wMetrics.totalDays : Int) : Rat) ≠ 0) :=
  ⟨by decide, by rfl, claim_C8 [wPhase] 1000 wMetrics (by decide) (by rfl)⟩

/-- **C1, amended**: for every schedulable phase included in the metrics,
`leftPercent ≥ 0`, and the left edge plus the *proportional* (unclamped)
width stays within 100%; consequently `leftPercent + widthPercent ≤ 100`
whenever the 2% minimum-width clamp is not engaged (proportional width at
least 2%).  With the clamp engaged the bar can overflow, but never reaches
102%. -/
theorem claim_C1_amended (ps : List Phase) (cw : Rat) (m : TimelineMetrics) (p : Phase)
    (hv : ValidPhases ps)
    (hm : calculateTimelineMetrics ps cw = some m)
    (hp : p ∈ filterPhasesWithDates ps) :
    ∃ pos s e, parseDate p.startDate = some s ∧ parseDate p.endDate = some e ∧
      calculatePhasePosition p m = some pos ∧
      0 ≤ pos.leftPercent ∧
      pos.leftPercent +
        ((max (daysBetween s e) 1 : Int) : Rat) / ((m.totalDays : Int) : Rat) * 100 ≤ 100 ∧
      ((2 : Rat) ≤ ((max (daysBetween s e) 1 : Int) : Rat) / ((m.totalDays : Int) : Rat) * 100 →
        pos.leftPercent + pos.widthPercent ≤ 100) ∧
      pos.leftPercent + pos.widthPercent < 102 := by
  obtain ⟨mn, mx, hat1, hat2, hbd1, hbd2, hsd, hed, htd, -, -⟩ := metrics_spec hm
  obtain ⟨p1, hp1, hp1s⟩ := hat1
  obtain ⟨p2, hp2, hp2e⟩ := hat2
  have hvmn : ValidDate mn := valid_of_mem_start hv hp1 hp1s
  have hvmx : ValidDate mx := valid_of_mem_end hv hp2 hp2e
  obtain ⟨s, e, hs, he, hse⟩ := schedulableB_spec (List.mem_filter.mp hp).2
  -- integer-level facts about the offsets
  have hA : daysBetween m.startDate s = tv s - tv mn + 7 := by
    rw [hsd, daysBetween_eq, tv_subDays7 mn hvmn]
    omega
  have hDeq : daysBetween s e = tv e - tv s := daysBetween_eq s e
  have hTeq : m.totalDays = tv mx - tv mn + 14 := by
    rw [htd, daysBetween_eq, tv_subDays7 mn hvmn, tv_addDays7 mx hvmx]
    omega
  have hmns : tv mn ≤ tv s := hbd1 p hp s hs
  have hemx : tv e ≤ tv mx := hbd2 p hp e he
  have hA7 : 7 ≤ daysBetween m.startDate s := by omega
  have hD1 : 1 ≤ max (daysBetween s e) 1 := le_max_right _ _
  have hADT : daysBetween m.startDate s + max (daysBetween s e) 1 ≤ m.totalDays - 6 := by
    rw [hA, hDeq, hTeq]
    omega
  have hT14 : 14 ≤ m.totalDays := by omega
  -- move to rationals
  set A : Int := daysBetween m.startDate s with hAdef
  set D : Int := max (daysBetween s e) 1 with hDdef
  set T : Int := m.totalDays with hTdef
  have hT0 : (0 : Rat) < (T : Rat) := by
    have : (0 : Int) < T := by omega
    exact_mod_cast this
  have hA0 : (0 : Rat) ≤ (A : Rat) := by
    have : (0 : Int) ≤ A := by omega
    exact_mod_cast this
  have hD0 : (0 : Rat) ≤ (D : Rat) := by
    have : (0 : Int) ≤ D := by omega
    exact_mod_cast this
  have hADT' : (A : Rat) + (D : Rat) ≤ (T : Rat) - 6 := by
    have : A + D ≤ T - 6 := hADT
    exact_mod_cast this
  have hleft0 : (0 : Rat) ≤ (A : Rat) / (T : Rat) * 100 :=
    mul_nonneg (div_nonneg hA0 hT0.le) (by norm_num)
  have hsum : (A : Rat) / (T : Rat) * 100 + (D : Rat) / (T : Rat) * 100 < 100 := by
    rw [div_mul_eq_mul_div, div_mul_eq_mul_div, div_add_div_same, div_lt_iff hT0]
    nlinarith [hADT', hT0]
  have hraw0 : (0 : Rat) ≤ (D : Rat) / (T : Rat) * 100 :=
    mul_nonneg (div_nonneg hD0 hT0.le) (by norm_num)
  refine ⟨⟨(A : Rat) / (T : Rat) * 100, max ((D : Rat) / (T : Rat) * 100) 2, 0⟩, s, e,
    hs, he, ?_, hleft0, by exact hsum.le, ?_, ?_⟩
  · simp only [calculatePhasePosition, hs, he, hAdef, hDdef, hTdef]
  · intro hclamp
    simp only
    rw [max_eq_left hclamp]
    exact hsum.le
  · simp only
    have hmax : max ((D : Rat) / (T : Rat) * 100) 2 ≤ (D : Rat) / (T : Rat) * 100 + 2 :=
      max_le (by linarith) (by linarith)
    linarith

/-- Witness instantiating `claim_C1_amended` on `[wPhase]`. -/
theorem claim_C1_witness :
    ValidPhases [wPhase] ∧
    calculateTimelineMetrics [wPhase] 1000 = some wMetrics ∧
    wPhase ∈ filterPhasesWithDates [wPhase] ∧
    (∃ pos s e, parseDate wPhase.startDate = some s ∧ parseDate wPhase.endDate = some e ∧
      calculatePhasePosition wPhase wMetrics = some pos ∧
      0 ≤ pos.leftPercent ∧
      pos.leftPercent +
        ((max (daysBetween s e) 1 : Int) : Rat) / ((wMetrics.totalDays : Int) : Rat) * 100 ≤ 100 ∧
      ((2 : Rat) ≤
          ((max (daysBetween s e) 1 : Int) : Rat) / ((wMetrics.totalDays : Int) : Rat) * 100 →
        pos.leftPercent + pos.widthPercent ≤ 100) ∧
      pos.leftPercent + pos.widthPercent < 102) :=
  ⟨by decide, by rfl, by decide,
    claim_C1_amended [wPhase] 1000 wMetrics wPhase (by decide) (by rfl) (by decide)⟩

/-- **C2, counterexample**: `bbP1` ends 2025-01-10, the very day `bbP2`
starts; both are schedulable, yet the greedy scan requires `start >
laneEnd` *strictly*, so the phases do **not** share lane 0: `bbP2` is pushed
to lane 1, refuting the claim that such back-to-back phases share a lane. -/
theorem claim_C2_counterexample :
    Schedulable bbP1 ∧ Schedulable bbP2 ∧ endT bbP1 = startT bbP2 ∧
    assignPhasesToLanes [bbP1, bbP2] = [("B1", 0), ("B2", 1)] := by
  refine ⟨by decide, by decide, by decide, ?_⟩
  unfold assignPhasesToLanes lanePairs sortedSchedulable
  rw [List.mergeSort_of_sorted (by decide)]
  decide

/-- **C2, amended**: for two schedulable phases where the first one's end
date equals the second one's start date, `assignPhasesToLanes` treats them
as conflicting (a lane is reused only when its end is *strictly* before the
next start) and assigns them to *different* lanes: lane 0 and lane 1. -/
theorem claim_C2_amended (P1 P2 : Phase) (s1 e1 s2 e2 : CivilDate)
    (h1s : parseDate P1.startDate = some s1) (h1e : parseDate P1.endDate = some e1)
    (h2s : parseDate P2.startDate = some s2) (h2e : parseDate P2.endDate = some e2)
    (hs1 : tv s1 ≤ tv e1) (hs2 : tv s2 ≤ tv e2)
    (hbb : tv e1 = tv s2) :
    assignPhasesToLanes [P1, P2] = [(P1.id, 0), (P2.id, 1)] := by
  have hfil : filterPhasesWithDates [P1, P2] = [P1, P2] := by
    simp [filterPhasesWithDates, List.filter_cons, schedulableB, h1s, h1e, h2s, h2e, hs1, hs2]
  have hsorted : List.Pairwise (fun a b => sortLE a b) [P1, P2] := by
    refine List.Pairwise.cons ?_ (List.pairwise_singleton _ _)
    intro b hb
    rcases List.mem_singleton.mp hb with rfl
    show sortLE P1 b = true
    unfold sortLE
    rw [startT_eq h1s, startT_eq h2s]
    simp only [decide_eq_true_eq]
    omega
  unfold assignPhasesToLanes lanePairs sortedSchedulable
  rw [hfil, List.mergeSort_of_sorted hsorted]
  have hnlt : ¬ (tv e1 < tv s2) := by omega
  simp [assignLanesGo, placeInLanes, h1s, h1e, h2s, h2e, hnlt]

/-- Witness instantiating `claim_C2_amended` on the back-to-back pair
`bbP1`, `bbP2`. -/
theorem claim_C2_witness :
    parseDate bbP1.startDate = some ⟨2025, 0, 1⟩ ∧
    parseDate bbP1.endDate = some ⟨2025, 0, 10⟩ ∧
    parseDate bbP2.startDate = some ⟨2025, 0, 10⟩ ∧
    parseDate bbP2.endDate = some ⟨2025, 0, 20⟩ ∧
    tv (⟨2025, 0, 1⟩ : CivilDate) ≤ tv ⟨2025, 0, 10⟩ ∧
    tv (⟨2025, 0, 10⟩ : CivilDate) ≤ tv ⟨2025, 0, 20⟩ ∧
    tv (⟨2025, 0, 10⟩ : CivilDate) = tv ⟨2025, 0, 10⟩ ∧
    assignPhasesToLanes [bbP1, bbP2] = [(bbP1.id, 0), (bbP2.id, 1)] :=
  ⟨rfl, rfl, rfl, rfl, by decide, by decide, rfl,
    claim_C2_amended bbP1 bbP2 _ _ _ _ rfl rfl rfl rfl (by decide) (by decide) rfl⟩

/-! ## Lane assignment: the `placeInLanes` scan -/

theorem placeInLanes_lane_le (s e : CivilDate) : ∀ (occ : List CivilDate),
    (placeInLanes s e occ).1 ≤ occ.length := by
  intro occ
  induction occ with
  | nil => simp [placeInLanes]
  | cons o rest ih =>
    by_cases hlt : tv o < tv s
    · simp [placeInLanes, hlt]
    · simp only [placeInLanes, hlt, if_false, List.length_cons]
      omega

theorem placeInLanes_found (s e : CivilDate) : ∀ (occ : List CivilDate) (i : Nat)
    (hi : i < occ.length), (placeInLanes s e occ).1 = i →
    tv (occ.get ⟨i, hi⟩) < tv s ∧ (placeInLanes s e occ).2 = occ.set i e := by
  intro occ
  induction occ with
  | nil => intro i hi; cases hi
  | cons o rest ih =>
    intro i hi heq
    by_cases hlt : tv o < tv s
    · have h0 : i = 0 := by
        simp [placeInLanes, hlt] at heq
        omega
      subst h0
      exact ⟨hlt, by simp [placeInLanes, hlt]⟩
    · have hk : (placeInLanes s e (o :: rest)).1 = (placeInLanes s e rest).1 + 1 := by
        simp [placeInLanes, hlt]
      match i, hi with
      | 0, _ =>
        exfalso
        rw [hk] at heq
        omega
      | Nat.succ j, hj =>
        have hj' : j < rest.length := by simpa using hj
        have heq' : (placeInLanes s e rest).1 = j := by
          rw [hk] at heq
          omega
        obtain ⟨ih1, ih2⟩ := ih j hj' heq'
        refine ⟨ih1, ?_⟩
        have hk2 : (placeInLanes s e (o :: rest)).2 = o :: (placeInLanes s e rest).2 := by
          simp [placeInLanes, hlt]
        rw [hk2, ih2]
        rfl

theorem placeInLanes_new (s e : CivilDate) : ∀ (occ : List CivilDate),
    (placeInLanes s e occ).1 = occ.length →
    (∀ i (hi : i < occ.length), tv s ≤ tv (occ.get ⟨i, hi⟩)) ∧
    (placeInLanes s e occ).2 = occ ++ [e] := by
  intro occ
  induction occ with
  | nil =>
    intro _
    exact ⟨fun i hi => absurd hi (Nat.not_lt_zero i), rfl⟩
  | cons o rest ih =>
    intro h
    by_cases hlt : tv o < tv s
    · exfalso
      simp [placeInLanes, hlt] at h
    · have hk : (placeInLanes s e (o :: rest)).1 = (placeInLanes s e rest).1 + 1 := by
        simp [placeInLanes, hlt]
      rw [hk] at h
      have hrest : (placeInLanes s e rest).1 = rest.length := by simpa using h
      obtain ⟨ih1, ih2⟩ := ih hrest
      constructor
      · intro i hi
        match i, hi with
        | 0, _ => exact le_of_not_lt hlt
        | Nat.succ j, hj => exact ih1 j (by simpa using hj)
      · have hk2 : (placeInLanes s e (o :: rest)).2 = o :: (placeInLanes s e rest).2 := by
          simp [placeInLanes, hlt]
        rw [hk2, ih2]
        rfl

theorem placeInLanes_length (s e : CivilDate) (occ : List CivilDate) :
    (placeInLanes s e occ).2.length =
      if (placeInLanes s e occ).1 = occ.length then occ.length + 1 else occ.length := by
  rcases Nat.lt_or_ge (placeInLanes s e occ).1 occ.length with h | h
  · rw [(placeInLanes_found s e occ _ h rfl).2, List.length_set, if_neg (by omega)]
  · have heq : (placeInLanes s e occ).1 = occ.length :=
      le_antisymm (placeInLanes_lane_le s e occ) h
    rw [(placeInLanes_new s e occ heq).2, List.length_append, if_pos heq]
    rfl

theorem placeInLanes_lane_lt (s e : CivilDate) (occ : List CivilDate) :
    (placeInLanes s e occ).1 < (placeInLanes s e occ).2.length := by
  have h1 := placeInLanes_lane_le s e occ
  rw [placeInLanes_length]
  split
  · omega
  · next hne => omega

/-! ## Small permutation helpers -/

theorem subperm_append_compat {α : Type} {l1 l2 t : List α} (h : List.Subperm l1 l2) :
    List.Subperm (l1 ++ t) (l2 ++ t) := by
  obtain ⟨u, hu, hsub⟩ := h
  exact ⟨u ++ t, hu.append_right t, hsub.append_right t⟩

theorem set_perm_cons_eraseIdx {α : Type} :
    ∀ (l : List α) (k : Nat) (a : α), k < l.length →
      List.Perm (l.set k a) (a :: l.eraseIdx k) := by
  intro l
  induction l with
  | nil => intro k a h; cases h
  | cons x xs ih =>
    intro k a h
    match k with
    | 0 => exact List.Perm.refl _
    | Nat.succ j =>
      have hj : j < xs.length := by simpa using h
      exact ((ih j a hj).cons x).trans (List.Perm.swap a x _)

theorem set_subperm_append {α : Type} (ws : List α) (k : Nat) (p : α) (t : List α)
    (h : k < ws.length) : List.Subperm (ws.set k p ++ t) (ws ++ p :: t) := by
  have h1 : List.Perm (ws.set k p) (p :: ws.eraseIdx k) := set_perm_cons_eraseIdx ws k p h
  have h2 : List.Sublist (p :: ws.eraseIdx k) (p :: ws) := (List.eraseIdx_sublist ws k).cons₂ p
  exact List.Subperm.trans (subperm_append_compat (h1.subperm.trans h2.subperm))
    (List.perm_middle.symm.subperm)

/-! ## Lane assignment: stepping `assignLanesGo` -/

theorem assignLanesGo_cons_eq {p : Phase} {s e : CivilDate} (rest : List Phase)
    (occ : List CivilDate) (hs : parseDate p.startDate = some s)
    (he : parseDate p.endDate = some e) :
    assignLanesGo (p :: rest) occ =
      ((p, (placeInLanes s e occ).1) :: (assignLanesGo rest (placeInLanes s e occ).2).1,
       (assignLanesGo rest (placeInLanes s e occ).2).2) := by
  simp only [assignLanesGo, hs, he]

theorem assignLanesGo_skip {p : Phase} (rest : List Phase) (occ : List CivilDate)
    (h : ¬ (schedulableB p = true) ∧
      (parseDate p.startDate = none ∨ parseDate p.endDate = none)) :
    assignLanesGo (p :: rest) occ = assignLanesGo rest occ := by
  rcases h.2 with hn | hn
  · simp only [assignLanesGo, hn]
  · cases hs : parseDate p.startDate with
    | none => simp only [assignLanesGo, hs]
    | some s => simp only [assignLanesGo, hs, hn]

theorem placeInLanes_len_mono (s e : CivilDate) (occ : List CivilDate) :
    occ.length ≤ (placeInLanes s e occ).2.length := by
  rw [placeInLanes_length]
  split <;> omega

theorem assignLanesGo_len_mono : ∀ (rem : List Phase) (occ : List CivilDate),
    occ.length ≤ (assignLanesGo rem occ).2.length := by
  intro rem
  induction rem with
  | nil => intro occ; exact le_refl _
  | cons p rest ih =>
    intro occ
    cases hs : parseDate p.startDate with
    | none =>
      rw [show assignLanesGo (p :: rest) occ = assignLanesGo rest occ by
        simp only [assignLanesGo, hs]]
      exact ih occ
    | some s =>
      cases he : parseDate p.endDate with
      | none =>
        rw [show assignLanesGo (p :: rest) occ = assignLanesGo rest occ by
          simp only [assignLanesGo, hs, he]]
        exact ih occ
      | some e =>
        rw [assignLanesGo_cons_eq rest occ hs he]
        exact le_trans (placeInLanes_len_mono s e occ) (ih _)

theorem assignLanesGo_lanes_lt : ∀ (rem : List Phase) (occ : List CivilDate),
    ∀ pr ∈ (assignLanesGo rem occ).1, pr.2 < (assignLanesGo rem occ).2.length := by
  intro rem
  induction rem with
  | nil => intro occ pr hpr; cases hpr
  | cons p rest ih =>
    intro occ pr hpr
    cases hs : parseDate p.startDate with
    | none =>
      rw [show assignLanesGo (p :: rest) occ = assignLanesGo rest occ by
        simp only [assignLanesGo, hs]] at hpr ⊢
      exact ih occ pr hpr
    | some s =>
      cases he : parseDate p.endDate with
      | none =>
        rw [show assignLanesGo (p :: rest) occ = assignLanesGo rest occ by
          simp only [assignLanesGo, hs, he]] at hpr ⊢
        exact ih occ pr hpr
      | some e =>
        rw [assignLanesGo_cons_eq rest occ hs he] at hpr ⊢
        rcases List.mem_cons.mp hpr with rfl | hpr'
        · exact lt_of_lt_of_le (placeInLanes_lane_lt s e occ) (assignLanesGo_len_mono rest _)
        · exact ih _ pr hpr'

theorem assignLanesGo_map_fst : ∀ (rem : List Phase) (occ : List CivilDate),
    (∀ p ∈ rem, schedulableB p = true) →
    (assignLanesGo rem occ).1.map Prod.fst = rem := by
  intro rem
  induction rem with
  | nil => intro occ _; rfl
  | cons p rest ih =>
    intro occ hsched
    obtain ⟨s, e, hs, he, -⟩ := schedulableB_spec (hsched p (List.mem_cons_self _ _))
    rw [assignLanesGo_cons_eq rest occ hs he]
    simp only [List.map_cons]
    rw [ih _ (fun q hq => hsched q (List.mem_cons_of_mem _ hq))]

theorem assignLanesGo_lane_used : ∀ (rem : List Phase) (occ : List CivilDate) (i : Nat),
    occ.length ≤ i → i < (assignLanesGo rem occ).2.length →
    ∃ pr ∈ (assignLanesGo rem occ).1, pr.2 = i := by
  intro rem
  induction rem with
  | nil =>
    intro occ i h1 h2
    exact absurd (lt_of_le_of_lt h1 h2) (lt_irrefl _)
  | cons p rest ih =>
    intro occ i h1 h2
    cases hs : parseDate p.startDate with
    | none =>
      rw [show assignLanesGo (p :: rest) occ = assignLanesGo rest occ by
        simp only [assignLanesGo, hs]] at h2 ⊢
      exact ih occ i h1 h2
    | some s =>
      cases he : parseDate p.endDate with
      | none =>
        rw [show assignLanesGo (p :: rest) occ = assignLanesGo rest occ by
          simp only [assignLanesGo, hs, he]] at h2 ⊢
        exact ih occ i h1 h2
      | some e =>
        rw [assignLanesGo_cons_eq rest occ hs he] at h2 ⊢
        by_cases hk : (placeInLanes s e occ).1 = occ.length
        · by_cases hio : i = occ.length
          · exact ⟨(p, (placeInLanes s e occ).1), List.mem_cons_self _ _, by rw [hk, hio]⟩
          · have hlen : (placeInLanes s e occ).2.length = occ.length + 1 := by
              rw [placeInLanes_length, if_pos hk]
            obtain ⟨pr, hpr, hpri⟩ := ih (placeInLanes s e occ).2 i (by omega) h2
            exact ⟨pr, List.mem_cons_of_mem _ hpr, hpri⟩
        · have hlen : (placeInLanes s e occ).2.length = occ.length := by
            rw [placeInLanes_length, if_neg hk]
          obtain ⟨pr, hpr, hpri⟩ := ih (placeInLanes s e occ).2 i (by omega) h2
          exact ⟨pr, List.mem_cons_of_mem _ hpr, hpri⟩

theorem placeInLanes_get_mono (s e : CivilDate) (occ : List CivilDate) (hse : tv s ≤ tv e)
    (j : Nat) (hj : j < occ.length) (hj2 : j < (placeInLanes s e occ).2.length) :
    tv (occ.get ⟨j, hj⟩) ≤ tv ((placeInLanes s e occ).2.get ⟨j, hj2⟩) := by
  rcases Nat.lt_or_ge (placeInLanes s e occ).1 occ.length with h | h
  · obtain ⟨hfound, heq⟩ := placeInLanes_found s e occ _ h rfl
    by_cases hjk : j = (placeInLanes s e occ).1
    · have hget : ((placeInLanes s e occ).2.get ⟨j, hj2⟩) = e := by
        simp only [heq, List.get_eq_getElem]
        subst hjk
        simp
      rw [hget]
      subst hjk
      exact le_trans (le_of_lt hfound) hse
    · have hget : ((placeInLanes s e occ).2.get ⟨j, hj2⟩) = occ.get ⟨j, hj⟩ := by
        simp only [heq, List.get_eq_getElem]
        rw [List.getElem_set_ne (by omega)]
      rw [hget]
  · have heq := (placeInLanes_new s e occ
      (le_antisymm (placeInLanes_lane_le s e occ) h)).2
    have hget : ((placeInLanes s e occ).2.get ⟨j, hj2⟩) = occ.get ⟨j, hj⟩ := by
      simp only [heq, List.get_eq_getElem]
      rw [List.getElem_append_left hj]
    rw [hget]

theorem placeInLanes_get_self (s e : CivilDate) (occ : List CivilDate)
    (h : (placeInLanes s e occ).1 < (placeInLanes s e occ).2.length) :
    (placeInLanes s e occ).2.get ⟨(placeInLanes s e occ).1, h⟩ = e := by
  rcases Nat.lt_or_ge (placeInLanes s e occ).1 occ.length with hlt | hge
  · obtain ⟨-, heq⟩ := placeInLanes_found s e occ _ hlt rfl
    simp only [heq, List.get_eq_getElem]
    simp
  · have hk := le_antisymm (placeInLanes_lane_le s e occ) hge
    have heq := (placeInLanes_new s e occ hk).2
    simp only [heq, List.get_eq_getElem]
    rw [List.getElem_concat_length _ _ _ hk]

theorem assignLanesGo_start_gt : ∀ (rem : List Phase) (occ : List CivilDate),
    (∀ p ∈ rem, schedulableB p = true) →
    ∀ pr ∈ (assignLanesGo rem occ).1, ∀ (h : pr.2 < occ.length),
      tv (occ.get ⟨pr.2, h⟩) < startT pr.1 := by
  intro rem
  induction rem with
  | nil => intro occ _ pr hpr; cases hpr
  | cons p rest ih =>
    intro occ hsched pr hpr h
    obtain ⟨s, e, hs, he, hse⟩ := schedulableB_spec (hsched p (List.mem_cons_self _ _))
    rw [assignLanesGo_cons_eq rest occ hs he] at hpr
    rcases List.mem_cons.mp hpr with rfl | hpr'
    · rw [startT_eq hs]
      exact (placeInLanes_found s e occ _ h rfl).1
    · have hj2 : pr.2 < (placeInLanes s e occ).2.length :=
        lt_of_lt_of_le h (placeInLanes_len_mono s e occ)
      have hrec := ih (placeInLanes s e occ).2
        (fun q hq => hsched q (List.mem_cons_of_mem _ hq)) pr hpr' hj2
      exact lt_of_le_of_lt (placeInLanes_get_mono s e occ hse pr.2 h hj2) hrec

/-- Two phases assigned to the same lane are processed strictly apart: the
earlier one's end day is strictly before the later one's start day. -/
theorem assignLanesGo_pairwise : ∀ (rem : List Phase) (occ : List CivilDate),
    (∀ p ∈ rem, schedulableB p = true) →
    List.Pairwise (fun a b => a.2 = b.2 → endT a.1 < startT b.1)
      (assignLanesGo rem occ).1 := by
  intro rem
  induction rem with
  | nil => intro occ _; exact List.Pairwise.nil
  | cons p rest ih =>
    intro occ hsched
    obtain ⟨s, e, hs, he, hse⟩ := schedulableB_spec (hsched p (List.mem_cons_self _ _))
    rw [assignLanesGo_cons_eq rest occ hs he]
    refine List.Pairwise.cons ?_ (ih _ (fun q hq => hsched q (List.mem_cons_of_mem _ hq)))
    intro b hb hlane
    have hklt : (placeInLanes s e occ).1 < (placeInLanes s e occ).2.length :=
      placeInLanes_lane_lt s e occ
    have hb2 : b.2 < (placeInLanes s e occ).2.length := hlane ▸ hklt
    have hgt := assignLanesGo_start_gt rest (placeInLanes s e occ).2
      (fun q hq => hsched q (List.mem_cons_of_mem _ hq)) b hb hb2
    have hfin : (⟨b.2, hb2⟩ : Fin (placeInLanes s e occ).2.length) =
        ⟨(placeInLanes s e occ).1, hklt⟩ := Fin.ext hlane.symm
    rw [hfin, placeInLanes_get_self s e occ hklt] at hgt
    rw [endT_eq he]
    exact hgt

/-! ## The sorted schedulable list -/

theorem sortLE_trans : ∀ (a b c : Phase), sortLE a b → sortLE b c → sortLE a c := by
  intro a b c hab hbc
  unfold sortLE at hab hbc ⊢
  simp only [decide_eq_true_eq] at hab hbc ⊢
  omega

theorem sortLE_total : ∀ (a b : Phase), sortLE a b || sortLE b a := by
  intro a b
  unfold sortLE
  simp only [Bool.or_eq_true, decide_eq_true_eq]
  omega

theorem sortedSchedulable_sched (ps : List Phase) :
    ∀ p ∈ sortedSchedulable ps, schedulableB p = true := by
  intro p hp
  unfold sortedSchedulable at hp
  exact (List.mem_filter.mp (List.mem_mergeSort.mp hp)).2

theorem sortedSchedulable_perm (ps : List Phase) :
    List.Perm (sortedSchedulable ps) (filterPhasesWithDates ps) :=
  List.mergeSort_perm _ _

theorem sortedSchedulable_sorted (ps : List Phase) :
    List.Pairwise (fun a b => sortLE a b) (sortedSchedulable ps) :=
  List.sorted_mergeSort sortLE_trans sortLE_total _

/-! ## Lane minimality, upper bound -/

theorem lanes_upper (ps : List Phase) (x : Int) :
    (filterPhasesWithDates ps).countP (coversB x) ≤ numLanes ps := by
  rw [← (sortedSchedulable_perm ps).countP_eq]
  rw [← assignLanesGo_map_fst (sortedSchedulable ps) [] (sortedSchedulable_sched ps),
    List.countP_map, List.countP_eq_length_filter]
  have hpw := assignLanesGo_pairwise (sortedSchedulable ps) [] (sortedSchedulable_sched ps)
  have hpwf := hpw.filter (coversB x ∘ Prod.fst)
  have hnd : (((assignLanesGo (sortedSchedulable ps) []).1.filter
      (coversB x ∘ Prod.fst)).map (fun pr => pr.2)).Nodup := by
    apply List.pairwise_map.mpr
    refine List.Pairwise.imp_of_mem ?_ hpwf
    intro a b ha hb hR heq
    have hca := (List.mem_filter.mp ha).2
    have hcb := (List.mem_filter.mp hb).2
    have hlt := hR heq
    simp only [Function.comp, coversB, Bool.and_eq_true, decide_eq_true_eq] at hca hcb
    omega
  have hlt : ∀ n ∈ ((assignLanesGo (sortedSchedulable ps) []).1.filter
      (coversB x ∘ Prod.fst)).map (fun pr => pr.2), n < numLanes ps := by
    intro n hn
    obtain ⟨pr, hpr, rfl⟩ := List.mem_map.mp hn
    exact assignLanesGo_lanes_lt _ _ pr (List.mem_filter.mp hpr).1
  calc ((assignLanesGo (sortedSchedulable ps) []).1.filter (coversB x ∘ Prod.fst)).length
      = (((assignLanesGo (sortedSchedulable ps) []).1.filter
          (coversB x ∘ Prod.fst)).map (fun pr => pr.2)).length := (List.length_map _ _).symm
    _ = (((assignLanesGo (sortedSchedulable ps) []).1.filter
          (coversB x ∘ Prod.fst)).map (fun pr => pr.2)).toFinset.card :=
        (List.toFinset_card_of_nodup hnd).symm
    _ ≤ (Finset.range (numLanes ps)).card :=
        Finset.card_le_card (fun n hn =>
          Finset.mem_range.mpr (hlt n (List.mem_toFinset.mp hn)))
    _ = numLanes ps := Finset.card_range _

/-! ## Lane minimality, lower bound

The witness list `ws` tracks, for each currently open lane, the phase most
recently placed in it; when the greedy scan fails to find a free lane for a
phase `p`, every tracked phase covers `p`'s start day, so the momentary
overlap count equals the new lane count. -/

theorem forall2_mem_left {α β : Type} {R : α → β → Prop} :
    ∀ {l1 : List α} {l2 : List β}, List.Forall₂ R l1 l2 → ∀ a ∈ l1, ∃ b ∈ l2, R a b := by
  intro l1 l2 h
  induction h with
  | nil => intro a ha; cases ha
  | cons hab htail ih =>
    intro a ha
    rcases List.mem_cons.mp ha with rfl | ha'
    · exact ⟨_, List.mem_cons_self _ _, hab⟩
    · obtain ⟨b, hb, hr⟩ := ih a ha'
      exact ⟨b, List.mem_cons_of_mem _ hb, hr⟩

theorem forall2_set {α β : Type} {R : α → β → Prop} :
    ∀ {l1 : List α} {l2 : List β}, List.Forall₂ R l1 l2 → ∀ (a : α) (b : β), R a b →
      ∀ (k : Nat), List.Forall₂ R (l1.set k a) (l2.set k b) := by
  intro l1 l2 h
  induction h with
  | nil => intro a b hab k; exact List.Forall₂.nil
  | cons hxy htail ih =>
    intro a b hab k
    match k with
    | 0 => exact List.Forall₂.cons hab htail
    | Nat.succ j => exact List.Forall₂.cons hxy (ih a b hab j)

theorem forall2_append_single {α β : Type} {R : α → β → Prop} :
    ∀ {l1 : List α} {l2 : List β}, List.Forall₂ R l1 l2 → ∀ {a : α} {b : β}, R a b →
      List.Forall₂ R (l1 ++ [a]) (l2 ++ [b]) := by
  intro l1 l2 h
  induction h with
  | nil => intro a b hab; exact List.Forall₂.cons hab List.Forall₂.nil
  | cons hxy htail ih => intro a b hab; exact List.Forall₂.cons hxy (ih hab)

theorem placeInLanes_new_mem (s e : CivilDate) (occ : List CivilDate)
    (h : (placeInLanes s e occ).1 = occ.length) : ∀ o ∈ occ, tv s ≤ tv o := by
  intro o ho
  obtain ⟨⟨i, hi⟩, rfl⟩ := List.mem_iff_get.mp ho
  exact (placeInLanes_new s e occ h).1 i hi

theorem sortLE_le {a b : Phase} (h : sortLE a b = true) : startT a ≤ startT b := by
  unfold sortLE at h
  simpa using h

theorem lanes_lower_go : ∀ (rem : List Phase) (occ : List CivilDate) (ws : List Phase),
    List.Pairwise (fun a b => sortLE a b) rem →
    (∀ p ∈ rem, schedulableB p = true) →
    List.Forall₂ (fun w o => endT w = tv o) ws occ →
    (∀ w ∈ ws, ∀ r ∈ rem, startT w ≤ startT r) →
    (assignLanesGo rem occ).2.length = occ.length ∨
    (∃ x ws', ws'.length = (assignLanesGo rem occ).2.length ∧
      List.Subperm ws' (ws ++ rem) ∧ ∀ w ∈ ws', coversB x w = true) := by
  intro rem
  induction rem with
  | nil => intro occ ws _ _ _ _; exact Or.inl rfl
  | cons p rest ih =>
    intro occ ws hsort hsched hrel hstart
    obtain ⟨s, e, hs, he, hse⟩ := schedulableB_spec (hsched p (List.mem_cons_self _ _))
    obtain ⟨hphead, hptail⟩ := List.pairwise_cons.mp hsort
    have hsched' : ∀ q ∈ rest, schedulableB q = true :=
      fun q hq => hsched q (List.mem_cons_of_mem _ hq)
    have hpe : endT p = tv e := endT_eq he
    have hps : startT p = tv s := startT_eq hs
    rw [assignLanesGo_cons_eq rest occ hs he]
    by_cases hk : (placeInLanes s e occ).1 = occ.length
    · -- a new lane is created for p
      obtain ⟨-, heq2⟩ := placeInLanes_new s e occ hk
      have hmem := placeInLanes_new_mem s e occ hk
      have hrel' : List.Forall₂ (fun w o => endT w = tv o) (ws ++ [p])
          (placeInLanes s e occ).2 := by
        rw [heq2]
        exact forall2_append_single hrel hpe
      have hstart' : ∀ w ∈ ws ++ [p], ∀ r ∈ rest, startT w ≤ startT r := by
        intro w hw r hr
        rcases List.mem_append.mp hw with hw' | hw'
        · exact hstart w hw' r (List.mem_cons_of_mem _ hr)
        · rw [List.mem_singleton.mp hw']
          exact sortLE_le (hphead r hr)
      have hcov : ∀ w ∈ ws ++ [p], coversB (startT p) w = true := by
        intro w hw
        unfold coversB
        simp only [Bool.and_eq_true, decide_eq_true_eq]
        rcases List.mem_append.mp hw with hw' | hw'
        · obtain ⟨o, ho, hwo⟩ := forall2_mem_left hrel w hw'
          refine ⟨hstart w hw' p (List.mem_cons_self _ _), ?_⟩
          rw [hwo, hps]
          exact hmem o ho
        · rw [List.mem_singleton.mp hw']
          constructor
          · exact le_refl _
          · rw [hps, hpe]
            exact hse
      rcases ih (placeInLanes s e occ).2 (ws ++ [p]) hptail hsched' hrel' hstart' with
        hL | ⟨x, ws', h1, h2, h3⟩
      · right
        refine ⟨startT p, ws ++ [p], ?_, ?_, hcov⟩
        · rw [hL]
          exact hrel'.length_eq
        · have hsub : List.Sublist (ws ++ [p]) (ws ++ p :: rest) :=
            List.Sublist.append_left ((List.nil_sublist rest).cons₂ p) ws
          exact hsub.subperm
      · right
        refine ⟨x, ws', h1, h2.trans ?_, h3⟩
        have hperm : List.Perm ((ws ++ [p]) ++ rest) (ws ++ p :: rest) := by
          rw [List.append_assoc]
          exact List.Perm.refl _
        exact hperm.subperm
    · -- p reuses existing lane k
      have hklt : (placeInLanes s e occ).1 < occ.length :=
        lt_of_le_of_ne (placeInLanes_lane_le s e occ) hk
      obtain ⟨-, heq2⟩ := placeInLanes_found s e occ _ hklt rfl
      have hrel' : List.Forall₂ (fun w o => endT w = tv o)
          (ws.set (placeInLanes s e occ).1 p) (placeInLanes s e occ).2 := by
        rw [heq2]
        exact forall2_set hrel p e hpe _
      have hstart' : ∀ w ∈ ws.set (placeInLanes s e occ).1 p, ∀ r ∈ rest,
          startT w ≤ startT r := by
        intro w hw r hr
        rcases List.mem_or_eq_of_mem_set hw with hw' | rfl
        · exact hstart w hw' r (List.mem_cons_of_mem _ hr)
        · exact sortLE_le (hphead r hr)
      rcases ih (placeInLanes s e occ).2 (ws.set (placeInLanes s e occ).1 p)
          hptail hsched' hrel' hstart' with hL | ⟨x, ws', h1, h2, h3⟩
      · left
        rw [hL, heq2, List.length_set]
      · right
        refine ⟨x, ws', h1, h2.trans ?_, h3⟩
        refine set_subperm_append ws _ p rest ?_
        rw [hrel.length_eq]
        exact hklt

theorem lanes_lower (ps : List Phase) :
    ∃ x : Int, numLanes ps ≤ (filterPhasesWithDates ps).countP (coversB x) := by
  rcases lanes_lower_go (sortedSchedulable ps) [] [] (sortedSchedulable_sorted ps)
      (sortedSchedulable_sched ps) List.Forall₂.nil (fun w hw => absurd hw (List.not_mem_nil w))
    with hL | ⟨x, ws', h1, h2, h3⟩
  · refine ⟨0, ?_⟩
    unfold numLanes
    rw [hL]
    exact Nat.zero_le _
  · refine ⟨x, ?_⟩
    unfold numLanes
    rw [← h1]
    have hcount : ws'.countP (coversB x) = ws'.length := List.countP_eq_length.mpr h3
    have hsub : List.Subperm ws' (sortedSchedulable ps) := by simpa using h2
    calc ws'.length = ws'.countP (coversB x) := hcount.symm
      _ ≤ (sortedSchedulable ps).countP (coversB x) := List.Subperm.countP_le _ hsub
      _ = (filterPhasesWithDates ps).countP (coversB x) :=
          (sortedSchedulable_perm ps).countP_eq _

/-- **C4**: the number of lanes produced by the greedy scan equals the
maximum, over all points in time `x`, of the number of schedulable phases
whose date ranges contain `x`; moreover every produced lane index is below
that count and every index below it is used, so it is exactly the number of
distinct lanes in the returned assignment (the classical minimum-platforms
bound). -/
theorem claim_C4 (ps : List Phase) :
    (∀ x : Int, (filterPhasesWithDates ps).countP (coversB x) ≤ numLanes ps) ∧
    (∃ x : Int, (filterPhasesWithDates ps).countP (coversB x) = numLanes ps) ∧
    (∀ pr ∈ lanePairs ps, pr.2 < numLanes ps) ∧
    (∀ i, i < numLanes ps → ∃ pr ∈ lanePairs ps, pr.2 = i) := by
  refine ⟨lanes_upper ps, ?_, ?_, ?_⟩
  · obtain ⟨x, hx⟩ := lanes_lower ps
    exact ⟨x, le_antisymm (lanes_upper ps x) hx⟩
  · intro pr hpr
    exact assignLanesGo_lanes_lt _ _ pr hpr
  · intro i hi
    exact assignLanesGo_lane_used _ _ i (Nat.zero_le _) hi

/-- **C5**: two distinct entries of the lane assignment that share a lane
index have non-overlapping date ranges: one phase's end day is at most (in
fact strictly before) the other phase's start day. -/
theorem claim_C5 (ps : List Phase) (a b : Phase × Nat)
    (ha : a ∈ lanePairs ps) (hb : b ∈ lanePairs ps) (hab : a ≠ b) (hlane : a.2 = b.2) :
    endT a.1 ≤ startT b.1 ∨ endT b.1 ≤ startT a.1 := by
  have hpw := assignLanesGo_pairwise (sortedSchedulable ps) [] (sortedSchedulable_sched ps)
  have hsym : List.Pairwise
      (fun u v : Phase × Nat =>
        (u.2 = v.2 → endT u.1 < startT v.1) ∨ (v.2 = u.2 → endT v.1 < startT u.1))
      (lanePairs ps) :=
    hpw.imp (fun h => Or.inl h)
  have hS : Symmetric
      (fun u v : Phase × Nat =>
        (u.2 = v.2 → endT u.1 < startT v.1) ∨ (v.2 = u.2 → endT v.1 < startT u.1)) :=
    fun u v h => h.symm
  rcases hsym.forall hS ha hb hab with h | h
  · exact Or.inl (le_of_lt (h hlane))
  · exact Or.inr (le_of_lt (h hlane.symm))

/-- Witness instantiating `claim_C5` on the gap pair `seqP1`, `seqP2`, which
end up sharing lane 0. -/
theorem claim_C5_witness :
    ((seqP1, 0) : Phase × Nat) ∈ lanePairs [seqP1, seqP2] ∧
    ((seqP2, 0) : Phase × Nat) ∈ lanePairs [seqP1, seqP2] ∧
    ((seqP1, 0) : Phase × Nat) ≠ (seqP2, 0) ∧
    ((seqP1, 0) : Phase × Nat).2 = ((seqP2, 0) : Phase × Nat).2 ∧
    (endT seqP1 ≤ startT seqP2 ∨ endT seqP2 ≤ startT seqP1) := by
  have hmem1 : ((seqP1, 0) : Phase × Nat) ∈ lanePairs [seqP1, seqP2] := by
    unfold lanePairs sortedSchedulable
    rw [List.mergeSort_of_sorted (by decide)]
    decide
  have hmem2 : ((seqP2, 0) : Phase × Nat) ∈ lanePairs [seqP1, seqP2] := by
    unfold lanePairs sortedSchedulable
    rw [List.mergeSort_of_sorted (by decide)]
    decide
  exact ⟨hmem1, hmem2, by decide, rfl,
    claim_C5 [seqP1, seqP2] (seqP1, 0) (seqP2, 0) hmem1 hmem2 (by decide) rfl⟩

/-! ## Determinism -/

/-- **C7**: the core computations are pure functions of their inputs: equal
phase lists, container widths, phases and metrics give equal results, in
particular identical lane assignments on repeated calls.  (In this
embedding the three functions are mathematical functions, so determinism
holds by construction; the JS source is single-threaded, side-effect-free
and uses the stable `Array.prototype.sort`.) -/
theorem claim_C7 (ps1 ps2 : List Phase) (cw1 cw2 : Rat) (p1 p2 : Phase)
    (m1 m2 : TimelineMetrics)
    (h : ps1 = ps2) (hcw : cw1 = cw2) (hp : p1 = p2) (hm : m1 = m2) :
    calculateTimelineMetrics ps1 cw1 = calculateTimelineMetrics ps2 cw2 ∧
    calculatePhasePosition p1 m1 = calculatePhasePosition p2 m2 ∧
    assignPhasesToLanes ps1 = assignPhasesToLanes ps2 := by
  subst h
  subst hcw
  subst hp
  subst hm
  exact ⟨rfl, rfl, rfl⟩

/-- Witness instantiating `claim_C7` on `[wPhase]` and `wMetrics`. -/
theorem claim_C7_witness :
    [wPhase] = [wPhase] ∧ (1000 : Rat) = 1000 ∧ wPhase = wPhase ∧ wMetrics = wMetrics ∧
    (calculateTimelineMetrics [wPhase] 1000 = calculateTimelineMetrics [wPhase] 1000 ∧
     calculatePhasePosition wPhase wMetrics = calculatePhasePosition wPhase wMetrics ∧
     assignPhasesToLanes [wPhase] = assignPhasesToLanes [wPhase]) :=
  ⟨rfl, rfl, rfl, rfl,
    claim_C7 [wPhase] [wPhase] 1000 1000 wPhase wPhase wMetrics wMetrics rfl rfl rfl rfl⟩

/-! ## Month markers -/

theorem tv_first_of_month (c : CivilDate) :
    tv ⟨c.year, c.month, 1⟩ = tv c - (c.day - 1) := by
  show daysBeforeYear c.year + daysBeforeMonth (isLeap c.year) c.month + 1 - 1 =
    daysBeforeYear c.year + daysBeforeMonth (isLeap c.year) c.month + c.day - 1 - (c.day - 1)
  omega

/-- Bounds satisfied by every metrics value computed from valid phases. -/
theorem metrics_bounds {ps : List Phase} {cw : Rat} {m : TimelineMetrics}
    (hv : ValidPhases ps) (hm : calculateTimelineMetrics ps cw = some m) :
    ValidDate m.startDate ∧ ValidDate m.endDate ∧ 14 ≤ m.totalDays ∧
    tv m.startDate < tv m.endDate ∧ m.totalDays = tv m.endDate - tv m.startDate := by
  obtain ⟨mn, mx, hat1, hat2, hbd1, hbd2, hsd, hed, htd, -, -⟩ := metrics_spec hm
  obtain ⟨p1, hp1, hp1s⟩ := hat1
  have hvmn : ValidDate mn := valid_of_mem_start hv hp1 hp1s
  obtain ⟨p2, hp2, hp2e⟩ := hat2
  have hvmx : ValidDate mx := valid_of_mem_end hv hp2 hp2e
  obtain ⟨s1, e1, hs1, he1, hle1⟩ := schedulableB_spec (List.mem_filter.mp hp1).2
  rw [hp1s] at hs1
  cases hs1
  have hmnmx : tv mn ≤ tv mx := le_trans hle1 (hbd2 p1 hp1 e1 he1)
  have h1 : tv m.startDate = tv mn - 7 := by rw [hsd, tv_subDays7 mn hvmn]
  have h2 : tv m.endDate = tv mx + 7 := by rw [hed, tv_addDays7 mx hvmx]
  have h3 : m.totalDays = tv m.endDate - tv m.startDate := by
    rw [htd, daysBetween_eq, hsd, hed]
  refine ⟨hsd ▸ valid_subDays7 mn hvmn, hed ▸ valid_addDays7 mx hvmx, ?_, ?_, h3⟩
  · omega
  · omega

/-- **C10**: the first month marker is dated the first day of the month
containing `windowStart`, a day at or before `windowStart`; when
`windowStart` is not the first of its month the marker strictly precedes the
window and its position percentage is strictly negative (it lies left of the
0% edge). -/
theorem claim_C10 (ps : List Phase) (cw : Rat) (m : TimelineMetrics)
    (hv : ValidPhases ps) (hm : calculateTimelineMetrics ps cw = some m) :
    ∃ marker rest, generateMonthMarkers m.startDate m.endDate m = marker :: rest ∧
      marker.date = ⟨m.startDate.year, m.startDate.month, 1⟩ ∧
      tv marker.date ≤ tv m.startDate ∧
      (m.startDate.day ≠ 1 → tv marker.date < tv m.startDate ∧ marker.position < 0) := by
  obtain ⟨hvs, hve, h14, hlt, htd⟩ := metrics_bounds hv hm
  have hday1 : 1 ≤ m.startDate.day := hvs.1
  have hfirst := tv_first_of_month m.startDate
  have hle : tv ⟨m.startDate.year, m.startDate.month, 1⟩ ≤ tv m.startDate := by omega
  have hcond : tv ⟨m.startDate.year, m.startDate.month, 1⟩ ≤ tv m.endDate := by omega
  have hgen : generateMonthMarkers m.startDate m.endDate m =
      ⟨⟨m.startDate.year, m.startDate.month, 1⟩,
        ((daysBetween m.startDate ⟨m.startDate.year, m.startDate.month, 1⟩ : Int) : Rat) /
          ((m.totalDays : Int) : Rat) * 100⟩ ::
      genMarkersGo m.endDate m (nextMonthDate ⟨m.startDate.year, m.startDate.month, 1⟩) := by
    unfold generateMonthMarkers
    rw [genMarkersGo, if_pos hcond]
  refine ⟨_, _, hgen, rfl, hle, ?_⟩
  intro hd
  refine ⟨?_, ?_⟩
  · show tv (⟨m.startDate.year, m.startDate.month, 1⟩ : CivilDate) < tv m.startDate
    omega
  have hnum : daysBetween m.startDate ⟨m.startDate.year, m.startDate.month, 1⟩ =
      -(m.startDate.day - 1) := by
    rw [daysBetween_eq]
    omega
  show ((daysBetween m.startDate ⟨m.startDate.year, m.startDate.month, 1⟩ : Int) : Rat) /
    ((m.totalDays : Int) : Rat) * 100 < 0
  rw [hnum]
  have hT : (0 : Rat) < ((m.totalDays : Int) : Rat) := by
    have : (0 : Int) < m.totalDays := by omega
    exact_mod_cast this
  have hn : ((-(m.startDate.day - 1) : Int) : Rat) < 0 := by
    have : (-(m.startDate.day - 1) : Int) < 0 := by omega
    exact_mod_cast this
  have hdiv := div_neg_of_neg_of_pos hn hT
  have h100 : (0 : Rat) < 100 := by norm_num
  exact mul_neg_of_neg_of_pos hdiv h100

/-- Witness instantiating `claim_C10` on `[wPhase]` (whose window starts
2025-01-08, not a first-of-month). -/
theorem claim_C10_witness :
    ValidPhases [wPhase] ∧
    calculateTimelineMetrics [wPhase] 1000 = some wMetrics ∧
    (∃ marker rest,
      generateMonthMarkers wMetrics.startDate wMetrics.endDate wMetrics = marker :: rest ∧
      marker.date = ⟨wMetrics.startDate.year, wMetrics.startDate.month, 1⟩ ∧
      tv marker.date ≤ tv wMetrics.startDate ∧
      (wMetrics.startDate.day ≠ 1 →
        tv marker.date < tv wMetrics.startDate ∧ marker.position < 0)) :=
  ⟨by decide, by rfl, claim_C10 [wPhase] 1000 wMetrics (by decide) (by rfl)⟩

end Timeline
